import Mathlib

/-!
Verification of the lcw loading-cache library.

The development shallowly embeds the Go sources of go-pkgz/lcw:

* `Engine` models the in-process retention engine
  (`src/internal/cache/cache.go`, type `LoadingCache`).  The engine state
  is the eviction list, front first; the `data` map of the Go code always
  holds exactly the entries of the list, so a single keyed list represents
  both.  Wall-clock time is passed explicitly as a `Nat`.
* `LruCache` models the loading-cache wrapper (`src/lru_cache.go`).
* `ExpirableCache` models `src/expirable_cache.go`; its ristretto backend
  is an external collaborator and is represented as a keyed list.
* Scoped keys, `parseKey` and `Flush` model the scoped-cache layer; the
  implementation file is not under `src/`, so those functions are
  modelled from the specification and checked against the tests that are
  under `src/` (`src/scache_test.go`).
-/

namespace Lcw

/-- Entry of the engine: `cacheItem` of `src/internal/cache/cache.go`
(`expiresAt`, `key`, `value`); expiry time is modelled as a `Nat` instant. -/
structure CacheItem (V : Type) where
  key : String
  value : V
  expiresAt : Nat
  deriving DecidableEq

/-- Engine configuration: the `ttl`, `maxKeys` and `isLRU` fields of
`LoadingCache` in `src/internal/cache/cache.go`.  `maxKeys` is an `int64`
in Go, hence `Int`. -/
structure EngineCfg where
  ttl : Nat
  maxKeys : Int
  isLRU : Bool

namespace Engine

variable {V : Type}

/-- Test whether an entry carries the given key (the `data[key]` map lookup). -/
def keyIs (key : String) (it : CacheItem V) : Bool :=
  it.key == key

/-- Lookup of `c.data[key]`: the entry with the given key, if present. -/
def findEntry (key : String) (st : List (CacheItem V)) : Option (CacheItem V) :=
  st.find? (keyIs key)

/-- The `Set` method of `LoadingCache` (`src/internal/cache/cache.go`,
lines 76-99): update-in-place moves the entry to the front and refreshes
`expiresAt`; insert pushes a fresh entry at the front and, when
`maxKeys > 0` and the length exceeds `maxKeys`, removes the back element. -/
def set (cfg : EngineCfg) (now : Nat) (key : String) (v : V)
    (st : List (CacheItem V)) : List (CacheItem V) :=
  match findEntry key st with
  | some _ =>
      ⟨key, v, now + cfg.ttl⟩ :: st.eraseP (keyIs key)
  | none =>
      let st' : List (CacheItem V) := ⟨key, v, now + cfg.ttl⟩ :: st
      if cfg.maxKeys > 0 ∧ (st'.length : Int) > cfg.maxKeys then
        st'.dropLast
      else
        st'

/-- The `Get` method (`src/internal/cache/cache.go`, lines 102-116):
misses on absent keys, misses on expired entries (strictly
`now > expiresAt`, mirroring `time.Now().After`), and in LRU mode moves a
hit to the front of the list. -/
def get (cfg : EngineCfg) (now : Nat) (key : String)
    (st : List (CacheItem V)) : Option V × List (CacheItem V) :=
  match findEntry key st with
  | none => (none, st)
  | some it =>
      if now > it.expiresAt then (none, st)
      else if cfg.isLRU then (some it.value, it :: st.eraseP (keyIs key))
      else (some it.value, st)

/-- The `Peek` method (`src/internal/cache/cache.go`, lines 119-130):
like `get` but never reorders, hence pure in the state. -/
def peek (now : Nat) (key : String) (st : List (CacheItem V)) : Option V :=
  match findEntry key st with
  | none => none
  | some it => if now > it.expiresAt then none else some it.value

/-- The `keys` method: snapshot of the keys from the back (oldest) to the
front (newest) of the eviction list. -/
def keysOf (st : List (CacheItem V)) : List String :=
  st.reverse.map (·.key)

/-- One pass of `deleteExpired` (`src/internal/cache/cache.go`, lines
228-240) over the oldest-first snapshot: an expired entry is removed; at
the first non-expired entry a non-LRU engine returns early, an LRU engine
keeps scanning. -/
def sweep (isLRU : Bool) (now : Nat) : List (CacheItem V) → List (CacheItem V)
  | [] => []
  | it :: rest =>
      if now > it.expiresAt then sweep isLRU now rest
      else if isLRU then it :: sweep isLRU now rest
      else it :: rest

/-- The `DeleteExpired` method: run the sweep over the oldest-first view
of the list. -/
def deleteExpired (cfg : EngineCfg) (now : Nat)
    (st : List (CacheItem V)) : List (CacheItem V) :=
  (sweep cfg.isLRU now st.reverse).reverse

/-- The `Invalidate` method (`src/internal/cache/cache.go`, lines 132-139). -/
def invalidate (key : String) (st : List (CacheItem V)) : List (CacheItem V) :=
  st.eraseP (keyIs key)

/-- The `RemoveOldest` method: drop the back element of the list. -/
def removeOldest (st : List (CacheItem V)) : List (CacheItem V) :=
  st.dropLast

end Engine

/-! Scoped-cache layer.  The file implementing it (scache.go) is not under
`src/`; only its tests are (`src/scache_test.go`).  The string helpers
below embed Go's `strings.Split` and `strings.Join`, and the key
builder, `parseKey` and `Flush` are modelled from the specification. -/

/-- Strings handled character by character, so that splitting and joining
can be reasoned about structurally. -/
abbrev Str := List Char

/-- Worker for `strings.Split` with a non-empty separator `s0 :: stail`:
scan left to right, cut at every non-overlapping occurrence of the
separator.  The `Nat` argument is fuel; it is always called with at least
the length of the scanned string, which makes the recursion structural
without changing the computed value. -/
def splitF (s0 : Char) (stail : Str) : Nat → Str → Str → List Str
  | _, acc, [] => [acc.reverse]
  | 0, acc, l => [acc.reverse ++ l]
  | fuel + 1, acc, c :: rest =>
      if (s0 :: stail).isPrefixOf (c :: rest) then
        acc.reverse :: splitF s0 stail fuel [] (rest.drop stail.length)
      else
        splitF s0 stail fuel (c :: acc) rest

/-- Go's `strings.Split(s, sep)` for the non-empty separators used by the
scoped-key format (`"@@"` and `"$$"`). -/
def goSplit (sep s : Str) : List Str :=
  match sep with
  | [] => [s]
  | s0 :: stail => splitF s0 stail s.length [] s

/-- Go's `strings.Join(xs, sep)`. -/
def goJoin (sep : Str) : List Str → Str
  | [] => []
  | [s] => s
  | s :: rest => s ++ sep ++ goJoin sep rest

/-- The `"@@"` separator between partition, id and scopes. -/
def sepAA : Str := ['@', '@']

/-- The `"$$"` separator between scopes. -/
def sepSS : Str := ['$', '$']

/-- Modelled from the spec: the scoped key `{partition, id, scopes}` built
by `NewKey(partition).ID(id).Scopes(s1, s2, …)`; scache.go is not under
`src/`. -/
structure Key where
  partition : Str
  id : Str
  scopes : List Str
  deriving DecidableEq

/-- Modelled from the spec: `Key.String()` serialization,
`partition ++ "@@" ++ id ++ "@@" ++ join(scopes, "$$")`; scache.go is not
under `src/`. -/
def keyString (k : Key) : Str :=
  k.partition ++ sepAA ++ k.id ++ sepAA ++ goJoin sepSS k.scopes

/-- Modelled from the spec: `parseKey(s)` splits on `"@@"`, requires
exactly 3 parts, takes scopes as `split(parts[2], "$$")` with the empty
string omitted, and fails otherwise; scache.go is not under `src/`. -/
def parseKey (s : Str) : Option Key :=
  match goSplit sepAA s with
  | [p, i, sc] => some ⟨p, i, (goSplit sepSS sc).filter (fun x => !x.isEmpty)⟩
  | _ => none

/-- Modelled from the spec: the `Flusher(partition).Scopes(…)` request;
scache.go is not under `src/`. -/
structure FlusherRequest where
  partition : Str
  scopes : List Str
  deriving DecidableEq

/-- The scope-match rule exactly as the specification words it: the
requested scope set is empty, or every requested scope appears in the
entry's scope set. -/
def matchScopesSpec (req entry : List Str) : Bool :=
  req.isEmpty || req.all (fun s => entry.contains s)

/-- The scope-match rule the tests under `src/` pin down
(`TestScache_Flush`): the requested scope set is empty, or at least one
requested scope appears in the entry's scope set. -/
def matchScopesAny (req entry : List Str) : Bool :=
  req.isEmpty || req.any (fun s => entry.contains s)

/-- Modelled from the spec: whether `Flush` deletes the cache key `k` —
the key parses, belongs to the requested partition, and its scope set
matches; unparseable keys are never deleted.  The match rule is a
parameter so the spec's rule and the tests' rule can be compared. -/
def shouldFlush (matcher : List Str → List Str → Bool)
    (req : FlusherRequest) (k : Str) : Bool :=
  match parseKey k with
  | none => false
  | some pk => pk.partition == req.partition && matcher req.scopes pk.scopes

/-- Deletion of one key from the base cache (`LruCache.Delete` forwards
to the engine `Invalidate`; on the key level it removes the key). -/
def deleteKey (k : Str) (keys : List Str) : List Str :=
  keys.filter (fun x => !(x == k))

/-- Modelled from the spec: `Flush` iterates a snapshot of the current
keys and deletes every matching one; scache.go is not under `src/`. -/
def scacheFlush (matcher : List Str → List Str → Bool)
    (req : FlusherRequest) (keys : List Str) : List Str :=
  keys.foldl (fun st k => if shouldFlush matcher req k then deleteKey k st else st) keys

/-- The partition used throughout `TestScache_Flush` (`src/scache_test.go`). -/
def siteP : Str := "site".toList

/-- The seven keys `TestScache_Flush` populates (`src/scache_test.go`,
lines 98-108): ids `key1` … `key7` with their scope sets, under the
`site` partition. -/
def flushKeys : List Str :=
  [keyString ⟨siteP, "key1".toList, ["s1".toList, "s2".toList]⟩,
   keyString ⟨siteP, "key2".toList, ["s1".toList, "s2".toList, "s3".toList]⟩,
   keyString ⟨siteP, "key3".toList, ["s1".toList, "s2".toList, "s3".toList]⟩,
   keyString ⟨siteP, "key4".toList, ["s2".toList, "s3".toList]⟩,
   keyString ⟨siteP, "key5".toList, ["s2".toList]⟩,
   keyString ⟨siteP, "key6".toList, []⟩,
   keyString ⟨siteP, "key7".toList, ["s4".toList, "s3".toList]⟩]

/-- The table of `TestScache_Flush` (`src/scache_test.go`, lines 110-123):
requested scopes and the number of keys the test expects to remain. -/
def flushTbl : List (List Str × Nat) :=
  [([], 0),
   (["s0".toList], 7),
   (["s1".toList], 4),
   (["s2".toList, "s1".toList], 2),
   (["s1".toList, "s2".toList], 2),
   (["s1".toList, "s2".toList, "s4".toList], 1),
   (["s1".toList, "s2".toList, "s3".toList], 1),
   (["s1".toList, "s2".toList, "ss".toList], 2)]

/-! Loading-cache wrapper `LruCache` (`src/lru_cache.go`).  Values of type
`V` may expose a byte size through the `Sizer` interface; this capability
is modelled as a function `sizer : V → Option Int` (`none` when the value
does not implement `Sizer`). -/

/-- Option fields of the wrapper caches (`maxKeys`, `maxKeySize`,
`maxValueSize` are Go `int`, `maxCacheSize` is `int64`). -/
structure Opts where
  maxKeys : Int
  maxKeySize : Int
  maxValueSize : Int
  maxCacheSize : Int

/-- The `noEvictionTTL` constant of `src/internal/cache/cache.go`
(ten years), in nanoseconds. -/
def noEvictionTTL : Nat := 10 * 365 * 24 * 60 * 60 * 1000000000

/-- The engine configuration `NewLruCache` builds: `cache.LRU()` and
`cache.MaxKeys(maxKeys)`, no TTL option, so the engine keeps the default
`noEvictionTTL`. -/
def lruCfg (o : Opts) : EngineCfg :=
  ⟨noEvictionTTL, o.maxKeys, true⟩

/-- The `allowed` admission check (`src/lru_cache.go`, lines 134-144; the
same function appears in `src/cache.go`, lines 95-105): reject a key
strictly longer than `maxKeySize`, reject a sized value whose size is
greater than or equal to `maxValueSize`. -/
def allowed {V : Type} (o : Opts) (sizer : V → Option Int)
    (key : String) (data : V) : Bool :=
  if o.maxKeySize > 0 ∧ (key.length : Int) > o.maxKeySize then false
  else
    match sizer data with
    | some sz => if o.maxValueSize > 0 ∧ sz ≥ o.maxValueSize then false else true
    | none => true

/-- State of an `LruCache`: the engine list plus the stat counters and
`currentSize` (`src/lru_cache.go`, lines 12-17). -/
structure LruState (V : Type) where
  backend : List (CacheItem V)
  hits : Nat
  misses : Nat
  errors : Nat
  currentSize : Int
  deriving DecidableEq

/-- The size-cap eviction loop of `LruCache.Get` (`src/lru_cache.go`,
lines 73-77): while `currentSize > maxCacheSize`, remove the back entry;
the eviction callback subtracts the size of every evicted `Sizer` value.
The fuel argument (always at least the list length) makes the recursion
structural; Go's loop would spin on an empty backend, the model stops. -/
def lruEvictLoop {V : Type} (o : Opts) (sizer : V → Option Int) :
    Nat → Int × List (CacheItem V) → Int × List (CacheItem V)
  | 0, s => s
  | fuel + 1, (cs, b) =>
      if o.maxCacheSize > 0 ∧ cs > o.maxCacheSize then
        match b.getLast? with
        | none => (cs, b)
        | some it => lruEvictLoop o sizer fuel (cs - (sizer it.value).getD 0, b.dropLast)
      else (cs, b)

/-- The `LruCache.Get` method (`src/lru_cache.go`, lines 55-81).  The
loader is modelled by its outcome, a value together with an optional
error.  A hit returns the cached value; a loader error is counted and
returned without caching; a loaded value is cached only when `allowed`
admits it, after which the size cap is enforced. -/
def lruGet {V : Type} (o : Opts) (sizer : V → Option Int) (now : Nat)
    (key : String) (loader : V × Option String)
    (st : LruState V) : (V × Option String) × LruState V :=
  match Engine.get (lruCfg o) now key st.backend with
  | (some v, b') => ((v, none), { st with backend := b', hits := st.hits + 1 })
  | (none, b') =>
      match loader with
      | (data, some e) =>
          ((data, some e), { st with backend := b', errors := st.errors + 1 })
      | (data, none) =>
          let st1 := { st with backend := b', misses := st.misses + 1 }
          if allowed o sizer key data then
            let b2 := Engine.set (lruCfg o) now key data st1.backend
            match sizer data with
            | some sz =>
                let cs := st1.currentSize + sz
                let r := lruEvictLoop o sizer b2.length (cs, b2)
                ((data, none), { st1 with backend := r.2, currentSize := r.1 })
            | none => ((data, none), { st1 with backend := b2 })
          else ((data, none), st1)

/-! Expirable cache (`src/expirable_cache.go`).  Its ristretto backend
lives in an external library and is abstracted as a keyed list; the
`keysStorage` index is modelled exactly as in the source. -/

/-- State of an `ExpirableCache` (`src/expirable_cache.go`, lines 13-19):
the `keysStorage` index, the ristretto backend contents, the stat
counters and `currentSize`. -/
structure ExpState (V : Type) where
  keysStorage : List String
  backend : List (String × V)
  hits : Nat
  misses : Nat
  errors : Nat
  currentSize : Int
  deriving DecidableEq

/-- The `ExpirableCache.Get` method (`src/expirable_cache.go`, lines
65-84): a hit counts and returns; a loader error counts and returns
without caching; a miss counts, adds the size, writes the backend and
records the key in `keysStorage`. -/
def expGet {V : Type} (sizer : V → Option Int) (key : String)
    (loader : V × Option String) (st : ExpState V) :
    (V × Option String) × ExpState V :=
  match st.backend.find? (fun kv => kv.1 == key) with
  | some kv => ((kv.2, none), { st with hits := st.hits + 1 })
  | none =>
      match loader with
      | (d, some e) => ((d, some e), { st with errors := st.errors + 1 })
      | (d, none) =>
          { fst := (d, none),
            snd :=
              { st with
                misses := st.misses + 1,
                currentSize :=
                  match sizer d with
                  | some sz => st.currentSize + sz
                  | none => st.currentSize,
                backend := (key, d) :: st.backend.filter (fun kv => !(kv.1 == key)),
                keysStorage :=
                  if st.keysStorage.contains key then st.keysStorage
                  else key :: st.keysStorage } }

/-- The `ExpirableCache.Invalidate` method (`src/expirable_cache.go`,
lines 87-93): for every key of `keysStorage` matched by the predicate,
delete it from the backend; `keysStorage` itself is not touched. -/
def expInvalidate {V : Type} (fn : String → Bool) (st : ExpState V) : ExpState V :=
  { st with
    backend :=
      st.keysStorage.foldl
        (fun b k => if fn k then b.filter (fun kv => !(kv.1 == k)) else b)
        st.backend }

/-- The `ExpirableCache.Delete` method (`src/expirable_cache.go`, lines
107-109): delete from the backend only. -/
def expDelete {V : Type} (key : String) (st : ExpState V) : ExpState V :=
  { st with backend := st.backend.filter (fun kv => !(kv.1 == key)) }

/-- The `ExpirableCache.Purge` method: clear the backend and reset
`currentSize`; `keysStorage` is not touched. -/
def expPurge {V : Type} (st : ExpState V) : ExpState V :=
  { st with backend := [], currentSize := 0 }

/-- The `ExpirableCache.Keys` method (`src/expirable_cache.go`, lines
112-118): the contents of `keysStorage`. -/
def expKeys {V : Type} (st : ExpState V) : List String :=
  st.keysStorage

/-- One public mutating operation of `ExpirableCache`, for reasoning
about arbitrary operation sequences. -/
inductive ExpOp (V : Type) where
  | get (key : String) (loader : V × Option String)
  | invalidate (fn : String → Bool)
  | del (key : String)
  | purge

/-- Apply one `ExpirableCache` operation to the state. -/
def expApply {V : Type} (sizer : V → Option Int) :
    ExpOp V → ExpState V → ExpState V
  | .get k l, st => (expGet sizer k l st).2
  | .invalidate fn, st => expInvalidate fn st
  | .del k, st => expDelete k st
  | .purge, st => expPurge st

/-- Run a sequence of `ExpirableCache` operations. -/
def expRun {V : Type} (sizer : V → Option Int)
    (ops : List (ExpOp V)) (st : ExpState V) : ExpState V :=
  ops.foldl (fun s op => expApply sizer op s) st

/-! Close.  The engine's `done` channel is modelled by a `Bool` (whether
it has been closed); Go's `close` on an already-closed channel panics. -/

/-- Go's `close(ch)` on a channel modelled by its closed flag: returns
the new flag, or the runtime panic on an already-closed channel. -/
def goChanClose (closed : Bool) : Except String Bool :=
  if closed then Except.error ("close of closed channel") else Except.ok true

/-- The v1 engine `Close` (`src/internal/cache/cache.go`, lines 194-198):
it runs `close(c.done)` unconditionally. -/
def closeV1 (doneClosed : Bool) : Except String Bool :=
  goChanClose doneClosed

/-- The v2 engine `Close` (`src/v2/internal/cache/cache.go`, lines
188-199): a `select` on `done` returns early when the channel is already
closed, otherwise the channel is closed; it never panics. -/
def closeV2 (doneClosed : Bool) : Bool :=
  if doneClosed then doneClosed else true

/-- Ordering invariant of the eviction list: from the front (newest) to
the back (oldest) the expiry instants never increase — equivalently, the
oldest-first view is sorted by `expiresAt`.  With a constant TTL every
insertion and update carries the largest expiry so far, which is why the
invariant holds for non-LRU engines. -/
def expiryOrdered {V : Type} (st : List (CacheItem V)) : Prop :=
  List.Pairwise (fun a b => b.expiresAt ≤ a.expiresAt) st

/-- Every entry expires no later than the given bound. -/
def expiryBounded {V : Type} (bound : Nat) (st : List (CacheItem V)) : Prop :=
  ∀ it ∈ st, it.expiresAt ≤ bound

/-- Keys whose components stay clear of the serialization separators:
the partition and the id contain no `@` character, and every scope is
non-empty and contains neither `@` nor `$`. -/
def sepFree (k : Key) : Prop :=
  (∀ c ∈ k.partition, c ≠ '@') ∧ (∀ c ∈ k.id, c ≠ '@') ∧
    ∀ s ∈ k.scopes, s ≠ [] ∧ ∀ c ∈ s, c ≠ '@' ∧ c ≠ '$'

/-! Concrete evaluations of the embedded operations. -/

example :
    Engine.get (V := Nat) ⟨10, 0, false⟩ 5 "a" [⟨"a", 7, 4⟩] = (none, [⟨"a", 7, 4⟩]) := by
  decide

example :
    Engine.get (V := Nat) ⟨10, 0, true⟩ 3 "a" [⟨"b", 1, 9⟩, ⟨"a", 7, 4⟩] =
      (some 7, [⟨"a", 7, 4⟩, ⟨"b", 1, 9⟩]) := by
  decide

example :
    Engine.set (V := Nat) ⟨10, 2, false⟩ 0 "c" 3 [⟨"b", 2, 10⟩, ⟨"a", 1, 10⟩] =
      [⟨"c", 3, 10⟩, ⟨"b", 2, 10⟩] := by
  decide

example :
    Engine.deleteExpired (V := Nat) ⟨10, 0, false⟩ 5 [⟨"b", 2, 9⟩, ⟨"a", 1, 4⟩] =
      [⟨"b", 2, 9⟩] := by
  decide

example : goSplit sepAA ("p1@@key1@@s1".toList) =
    ["p1".toList, "key1".toList, "s1".toList] := by decide

example : parseKey ("p2@@key2@@s11$$s2".toList) =
    some ⟨"p2".toList, "key2".toList, ["s11".toList, "s2".toList]⟩ := by decide

example : parseKey ("@@key3@@".toList) = some ⟨[], "key3".toList, []⟩ := by decide

example : parseKey ("abc".toList) = none := by decide

example : parseKey [] = none := by decide

example : keyString ⟨"p2".toList, "key2".toList, ["s11".toList, "s2".toList]⟩ =
    "p2@@key2@@s11$$s2".toList := by decide

example :
    flushTbl.all (fun row =>
      (scacheFlush matchScopesAny ⟨siteP, row.1⟩ flushKeys).length == row.2) = true := by
  decide

example :
    (scacheFlush matchScopesSpec ⟨siteP, ["s1".toList, "s2".toList, "ss".toList]⟩
      flushKeys).length = 7 := by
  decide

/-! Helper lemmas about the engine. -/

/-- A `get` that misses leaves the engine state exactly as it was. -/
theorem Engine.get_miss {V : Type} (cfg : EngineCfg) (now : Nat) (key : String)
    (st : List (CacheItem V)) (h : (Engine.get cfg now key st).1 = none) :
    Engine.get cfg now key st = (none, st) := by
  unfold Engine.get at h ⊢
  cases hf : Engine.findEntry key st with
  | none => rfl
  | some it =>
      rw [hf] at h
      by_cases he : now > it.expiresAt
      · simp [he]
      · by_cases hl : cfg.isLRU = true <;> simp [he, hl] at h

/-- A key that misses at time `now` still misses at any later time: absent
keys stay absent, and a fixed `expiresAt` stays in the past. -/
theorem Engine.get_miss_mono {V : Type} (cfg : EngineCfg) (now now' : Nat)
    (key : String) (st : List (CacheItem V))
    (h : (Engine.get cfg now key st).1 = none) (hle : now ≤ now') :
    (Engine.get cfg now' key st).1 = none := by
  unfold Engine.get at h ⊢
  cases hf : Engine.findEntry key st with
  | none => rfl
  | some it =>
      rw [hf] at h
      by_cases he : now > it.expiresAt
      · have : now' > it.expiresAt := lt_of_lt_of_le he hle
        simp [this]
      · by_cases hl : cfg.isLRU = true <;> simp [he, hl] at h

/-- C1: double `Close`.  The first `Close` of a v1 engine closes the
`done` channel; the second runs `close` on the already-closed channel and
reproduces Go's `close of closed channel` runtime panic.  The guarded v2
`Close` is a no-op on an already-closed engine, so closing it twice is
safe.  This refutes the claim for the v1 engine
(`src/internal/cache/cache.go`, lines 194-198). -/
theorem closeV1_second_call_panics_closeV2_safe :
    closeV1 false = Except.ok true ∧
    closeV1 true = Except.error ("close of closed channel") ∧
    closeV2 false = true ∧ closeV2 true = true :=
  ⟨rfl, rfl, rfl, rfl⟩

/-- C5: reading an expired entry.  When the entry behind `key` has
`expiresAt` strictly in the past, `Get` returns a miss and leaves the
engine state — map and ordering list — untouched (in particular no
LRU move-to-front happens), and `Peek` also misses. -/
theorem get_peek_expired {V : Type} (cfg : EngineCfg) (now : Nat) (key : String)
    (st : List (CacheItem V)) (it : CacheItem V)
    (hfind : Engine.findEntry key st = some it)
    (hexp : now > it.expiresAt) :
    Engine.get cfg now key st = (none, st) ∧ Engine.peek now key st = none := by
  constructor
  · unfold Engine.get
    rw [hfind]
    simp [hexp]
  · unfold Engine.peek
    rw [hfind]
    simp [hexp]

/-- Witness for C5: a concrete LRU engine holding an entry that expired
at instant 4, read at instant 5. -/
theorem get_peek_expired_wit :
    Engine.get (V := Nat) ⟨10, 0, true⟩ 5 "a" [⟨"a", 7, 4⟩] = (none, [⟨"a", 7, 4⟩]) ∧
    Engine.peek 5 "a" [⟨"a", 7, 4⟩] = none :=
  get_peek_expired ⟨10, 0, true⟩ 5 "a" [⟨"a", 7, 4⟩] ⟨"a", 7, 4⟩ (by decide) (by decide)

/-- C3: a loader error on a miss.  `LruCache.Get` returns exactly the
loader's value and error, increments only the `errors` counter (hits,
misses, `currentSize` and the whole backend are unchanged), and because
the key was not inserted a lookup of that key at any later instant still
misses. -/
theorem lruGet_loader_error {V : Type} (o : Opts) (sizer : V → Option Int)
    (now now' : Nat) (key : String) (data : V) (e : String) (st : LruState V)
    (hmiss : (Engine.get (lruCfg o) now key st.backend).1 = none)
    (hle : now ≤ now') :
    lruGet o sizer now key (data, some e) st =
      ((data, some e), { st with errors := st.errors + 1 }) ∧
    (Engine.get (lruCfg o) now' key
      (lruGet o sizer now key (data, some e) st).2.backend).1 = none := by
  have hE := Engine.get_miss (lruCfg o) now key st.backend hmiss
  constructor
  · simp only [lruGet, hE]
  · simp only [lruGet, hE]
    exact Engine.get_miss_mono (lruCfg o) now now' key st.backend hmiss hle

/-- Witness for C3: an empty LRU cache, a loader failing with `boom`. -/
theorem lruGet_loader_error_wit :
    lruGet (V := Nat) ⟨1000, 0, 0, 0⟩ (fun _ => none) 3 "k" (7, some ("boom"))
        ⟨[], 0, 0, 0, 0⟩ =
      ((7, some ("boom")), ⟨[], 0, 0, 1, 0⟩) ∧
    (Engine.get (lruCfg ⟨1000, 0, 0, 0⟩) 9 "k"
      (lruGet (V := Nat) ⟨1000, 0, 0, 0⟩ (fun _ => none) 3 "k" (7, some ("boom"))
        ⟨[], 0, 0, 0, 0⟩).2.backend).1 = none :=
  lruGet_loader_error ⟨1000, 0, 0, 0⟩ (fun _ => none) 3 9 "k" 7 "boom"
    ⟨[], 0, 0, 0, 0⟩ (by decide) (by decide)

/-- C4: admission.  `allowed` rejects exactly when the key is strictly
longer than a positive `maxKeySize`, or the value exposes a size and that
size is at least a positive `maxValueSize`.  A key of length exactly
`maxKeySize` is admitted (provided the value-size check passes), a value
of size exactly `maxValueSize` is rejected, and a rejected value is still
returned to the caller with a nil error — only the miss counter moves,
nothing is cached. -/
theorem allowed_characterization {V : Type} (o : Opts) (sizer : V → Option Int)
    (key : String) (data : V) :
    (allowed o sizer key data = false ↔
      (o.maxKeySize > 0 ∧ (key.length : Int) > o.maxKeySize) ∨
      (∃ sz, sizer data = some sz ∧ o.maxValueSize > 0 ∧ sz ≥ o.maxValueSize)) ∧
    ((key.length : Int) = o.maxKeySize →
      (∀ sz, sizer data = some sz → o.maxValueSize ≤ 0 ∨ sz < o.maxValueSize) →
      allowed o sizer key data = true) ∧
    (o.maxValueSize > 0 → sizer data = some o.maxValueSize →
      allowed o sizer key data = false) ∧
    (∀ (now : Nat) (st : LruState V),
      allowed o sizer key data = false →
      (Engine.get (lruCfg o) now key st.backend).1 = none →
      lruGet o sizer now key (data, none) st =
        ((data, none), { st with misses := st.misses + 1 })) := by
  refine ⟨?_, ?_, ?_, ?_⟩
  · unfold allowed
    by_cases hk : o.maxKeySize > 0 ∧ (key.length : Int) > o.maxKeySize
    · simp [hk]
    · cases hs : sizer data with
      | none => simp [hk, hs]
      | some sz =>
          by_cases hv : o.maxValueSize > 0 ∧ sz ≥ o.maxValueSize
          · simp [hk, hs, hv]
          · simp [hk, hs, hv]
  · intro hlen hval
    unfold allowed
    have hk : ¬(o.maxKeySize > 0 ∧ (key.length : Int) > o.maxKeySize) := by
      rintro ⟨_, hgt⟩
      omega
    cases hs : sizer data with
    | none => simp [hk]
    | some sz =>
        have := hval sz hs
        have hv : ¬(o.maxValueSize > 0 ∧ sz ≥ o.maxValueSize) := by
          rintro ⟨h1, h2⟩
          rcases this with h | h <;> omega
        simp [hk, hv]
  · intro hpos hs
    unfold allowed
    cases hk : (decide (o.maxKeySize > 0 ∧ (key.length : Int) > o.maxKeySize)) with
    | true => simp [of_decide_eq_true hk]
    | false =>
        simp [of_decide_eq_false hk, hs]
        omega
  · intro now st hrej hmiss
    have hE := Engine.get_miss (lruCfg o) now key st.backend hmiss
    simp only [lruGet, hE, hrej]
    simp

/-- Witness for C4: `maxKeySize = 2`, `maxValueSize = 5`; the 2-byte key
`ab` is admitted for an unsized value, a value of size exactly 5 is
rejected, and the rejected load is returned with a nil error while only
the miss counter changes. -/
theorem allowed_characterization_wit :
    (allowed (V := Nat) ⟨1000, 2, 5, 0⟩ (fun v => some (v : Int)) "ab" 5 = false ↔
      ((2 : Int) > 0 ∧ (("ab".length : Int) > 2)) ∨
      (∃ sz, some ((5 : Nat) : Int) = some sz ∧ (5 : Int) > 0 ∧ sz ≥ 5)) ∧
    (allowed (V := Nat) ⟨1000, 2, 5, 0⟩ (fun _ => none) "ab" 5 = true) ∧
    (allowed (V := Nat) ⟨1000, 2, 5, 0⟩ (fun v => some (v : Int)) "ab" 5 = false) ∧
    (lruGet (V := Nat) ⟨1000, 2, 5, 0⟩ (fun v => some (v : Int)) 3 "ab" (5, none)
        ⟨[], 0, 0, 0, 0⟩ =
      ((5, none), ⟨[], 0, 1, 0, 0⟩)) :=
  ⟨(allowed_characterization (V := Nat) ⟨1000, 2, 5, 0⟩ (fun v => some (v : Int)) "ab" 5).1,
   (allowed_characterization (V := Nat) ⟨1000, 2, 5, 0⟩ (fun _ => none) "ab" 5).2.1 (by decide)
     (by intro sz h; cases h),
   (allowed_characterization (V := Nat) ⟨1000, 2, 5, 0⟩ (fun v => some (v : Int)) "ab" 5).2.2.1
     (by decide) (by decide),
   (allowed_characterization (V := Nat) ⟨1000, 2, 5, 0⟩ (fun v => some (v : Int)) "ab" 5).2.2.2
     3 ⟨[], 0, 0, 0, 0⟩ (by decide) (by decide)⟩

/-- Erasing the entry of one key does not disturb the lookup of a
different key. -/
theorem find_eraseP_other {V : Type} (key k' : String) (hne : k' ≠ key)
    (st : List (CacheItem V)) :
    (st.eraseP (Engine.keyIs key)).find? (Engine.keyIs k') =
      st.find? (Engine.keyIs k') := by
  induction st with
  | nil => rfl
  | cons a l ih =>
      by_cases hp : Engine.keyIs key a = true
      · rw [List.eraseP_cons_of_pos hp]
        have hfa : a.key = key := by
          have := hp
          unfold Engine.keyIs at this
          exact eq_of_beq this
        have hq : Engine.keyIs k' a = false := by
          unfold Engine.keyIs
          rw [hfa]
          exact beq_eq_false_iff_ne.mpr (fun h => hne h.symm)
        rw [List.find?_cons_of_neg l (by simp [hq])]
      · rw [List.eraseP_cons_of_neg hp]
        by_cases hq : Engine.keyIs k' a = true
        · rw [List.find?_cons_of_pos _ hq, List.find?_cons_of_pos l hq]
        · rw [List.find?_cons_of_neg _ (by simpa using hq),
            List.find?_cons_of_neg l (by simpa using hq), ih]

/-- C6: count cap on insert.  With `maxKeys > 0`, a `Set` of a fresh key
that pushes the count past `maxKeys` removes exactly one entry, the back
(oldest) element of the ordering list, leaving the count where it was;
and for every `Set` — fresh or update — a state holding at most `maxKeys`
entries still holds at most `maxKeys` entries afterwards. -/
theorem set_maxKeys_eviction {V : Type} (cfg : EngineCfg) (now : Nat)
    (key : String) (v : V) (st : List (CacheItem V))
    (hnew : Engine.findEntry key st = none) (hmax : cfg.maxKeys > 0) :
    ((st.length + 1 : Int) > cfg.maxKeys →
      Engine.set cfg now key v st = (⟨key, v, now + cfg.ttl⟩ :: st).dropLast ∧
      (Engine.set cfg now key v st).length = st.length) ∧
    (∀ (key' : String) (v' : V), (st.length : Int) ≤ cfg.maxKeys →
      ((Engine.set cfg now key' v' st).length : Int) ≤ cfg.maxKeys) := by
  constructor
  · intro hover
    have hc : cfg.maxKeys > 0 ∧
        (((⟨key, v, now + cfg.ttl⟩ :: st).length : Int) > cfg.maxKeys) := by
      refine ⟨hmax, ?_⟩
      simp only [List.length_cons]
      push_cast
      omega
    constructor
    · simp only [Engine.set, hnew]
      rw [if_pos hc]
    · simp only [Engine.set, hnew]
      rw [if_pos hc, List.length_dropLast]
      simp
  · intro key' v' hle
    cases hf : Engine.findEntry key' st with
    | some it =>
        simp only [Engine.set, hf, List.length_cons]
        have ha : it ∈ st := List.mem_of_find?_eq_some hf
        have hp : Engine.keyIs key' it = true := List.find?_some hf
        have hlen := List.length_eraseP_add_one ha hp
        push_cast
        omega
    | none =>
        simp only [Engine.set, hf]
        by_cases hc : cfg.maxKeys > 0 ∧
            (((⟨key', v', now + cfg.ttl⟩ :: st).length : Int) > cfg.maxKeys)
        · rw [if_pos hc, List.length_dropLast]
          simp only [List.length_cons]
          push_cast
          omega
        · rw [if_neg hc]
          simp only [List.length_cons]
          by_contra hcon
          apply hc
          refine ⟨hmax, ?_⟩
          simp only [List.length_cons]
          push_cast at hcon ⊢
          omega

/-- Witness for C6: `maxKeys = 2`, two resident entries, a third
inserted: the back element `a` is dropped, the count stays 2. -/
theorem set_maxKeys_eviction_wit :
    (Engine.set (V := Nat) ⟨10, 2, false⟩ 0 "c" 3 [⟨"b", 2, 10⟩, ⟨"a", 1, 10⟩] =
        (⟨"c", 3, 10⟩ :: [⟨"b", 2, 10⟩, ⟨"a", 1, 10⟩]).dropLast ∧
      (Engine.set (V := Nat) ⟨10, 2, false⟩ 0 "c" 3
        [⟨"b", 2, 10⟩, ⟨"a", 1, 10⟩]).length = 2) ∧
    ((Engine.set (V := Nat) ⟨10, 2, false⟩ 0 "b" 9
      [⟨"b", 2, 10⟩, ⟨"a", 1, 10⟩]).length : Int) ≤ 2 :=
  ⟨(set_maxKeys_eviction ⟨10, 2, false⟩ 0 "c" 3 [⟨"b", 2, 10⟩, ⟨"a", 1, 10⟩]
      (by decide) (by decide)).1 (by decide),
   (set_maxKeys_eviction ⟨10, 2, false⟩ 0 "c" 3 [⟨"b", 2, 10⟩, ⟨"a", 1, 10⟩]
      (by decide) (by decide)).2 "b" 9 (by decide)⟩

/-- In the only case where an engine `Get` changes the state — an LRU
hit — the state becomes the found entry consed onto the list with that
entry's key erased; in every other case the state is untouched. -/
theorem get_state_cases {V : Type} (cfg : EngineCfg) (now : Nat)
    (key : String) (st : List (CacheItem V)) :
    (Engine.get cfg now key st).2 = st ∨
      ∃ it, Engine.findEntry key st = some it ∧ ¬now > it.expiresAt ∧
        (Engine.get cfg now key st).2 = it :: st.eraseP (Engine.keyIs key) := by
  cases hf : Engine.findEntry key st with
  | none =>
      left
      simp only [Engine.get, hf]
  | some it =>
      by_cases he : now > it.expiresAt
      · left
        simp only [Engine.get, hf]
        rw [if_pos he]
      · by_cases hl : cfg.isLRU = true
        · right
          refine ⟨it, rfl, he, ?_⟩
          simp only [Engine.get, hf]
          rw [if_neg he, if_pos hl]
        · left
          simp only [Engine.get, hf]
          rw [if_neg he, if_neg hl]

/-- C10: reads do not extend lifetimes.  After an engine `Get` — hit,
miss, or LRU hit that reorders the list — the entry found for every key,
its `expiresAt` included, is exactly what it was before, and the entry
count is unchanged; `Peek` is a pure function of the state and returns no
new state at all.  A `Set` of a key stores `expiresAt = now + ttl`, so an
entry expires exactly `ttl` after its most recent `Set`. -/
theorem reads_preserve_expiry {V : Type} (cfg : EngineCfg) (now : Nat)
    (key k' : String) (st : List (CacheItem V)) :
    Engine.findEntry k' (Engine.get cfg now key st).2 = Engine.findEntry k' st ∧
    ((Engine.get cfg now key st).2).length = st.length ∧
    (∀ (v : V), Engine.findEntry key (Engine.set cfg now key v st) =
      some ⟨key, v, now + cfg.ttl⟩) := by
  refine ⟨?_, ?_, ?_⟩
  · rcases get_state_cases cfg now key st with h | ⟨it, hf, _, h⟩
    · rw [h]
    · rw [h]
      have hf1 : st.find? (Engine.keyIs key) = some it := hf
      have hp : Engine.keyIs key it = true := List.find?_some hf1
      by_cases hk : k' = key
      · subst hk
        unfold Engine.findEntry
        rw [List.find?_cons_of_pos _ hp, hf1]
      · unfold Engine.findEntry
        have hbeq : (it.key == key) = true := hp
        have hq : Engine.keyIs k' it = false := by
          have hkey : it.key = key := eq_of_beq hbeq
          unfold Engine.keyIs
          rw [hkey]
          exact beq_eq_false_iff_ne.mpr (fun h => hk h.symm)
        rw [List.find?_cons_of_neg _ (by simp [hq])]
        exact find_eraseP_other key k' hk st
  · rcases get_state_cases cfg now key st with h | ⟨it, hf, _, h⟩
    · rw [h]
    · rw [h, List.length_cons]
      have hf1 : st.find? (Engine.keyIs key) = some it := hf
      have ha : it ∈ st := List.mem_of_find?_eq_some hf1
      have hp : Engine.keyIs key it = true := List.find?_some hf1
      have := List.length_eraseP_add_one ha hp
      omega
  · intro v
    cases hf : Engine.findEntry key st with
    | some it =>
        simp only [Engine.set, hf]
        unfold Engine.findEntry
        rw [List.find?_cons_of_pos _ (by simp [Engine.keyIs])]
    | none =>
        simp only [Engine.set, hf]
        by_cases hc : cfg.maxKeys > 0 ∧
            (((⟨key, v, now + cfg.ttl⟩ :: st).length : Int) > cfg.maxKeys)
        · rw [if_pos hc]
          cases st with
          | nil =>
              exfalso
              rcases hc with ⟨h1, h2⟩
              simp only [List.length_cons, List.length_nil] at h2
              omega
          | cons b l =>
              rw [List.dropLast_cons₂]
              unfold Engine.findEntry
              rw [List.find?_cons_of_pos _ (by simp [Engine.keyIs])]
        · rw [if_neg hc]
          unfold Engine.findEntry
          rw [List.find?_cons_of_pos _ (by simp [Engine.keyIs])]

/-- An LRU sweep scans the whole snapshot, so it keeps exactly the
non-expired entries. -/
theorem sweep_lru {V : Type} (now : Nat) (l : List (CacheItem V)) :
    Engine.sweep true now l = l.filter (fun it => decide (now ≤ it.expiresAt)) := by
  induction l with
  | nil => rfl
  | cons it rest ih =>
      by_cases he : now > it.expiresAt
      · have hd : (decide (now ≤ it.expiresAt)) = false := by
          simp only [decide_eq_false_iff_not]
          omega
        simp [Engine.sweep, he, List.filter_cons, hd, ih]
      · have hd : (decide (now ≤ it.expiresAt)) = true := by
          simp only [decide_eq_true_eq]
          omega
        simp [Engine.sweep, he, List.filter_cons, hd, ih]

/-- A non-LRU sweep returns early at the first non-expired entry; on a
snapshot sorted by expiry (oldest first) it still keeps exactly the
non-expired entries, because everything after that entry expires even
later. -/
theorem sweep_sorted {V : Type} (now : Nat) (l : List (CacheItem V))
    (hord : List.Pairwise (fun a b => a.expiresAt ≤ b.expiresAt) l) :
    Engine.sweep false now l = l.filter (fun it => decide (now ≤ it.expiresAt)) := by
  induction l with
  | nil => rfl
  | cons it rest ih =>
      rcases List.pairwise_cons.mp hord with ⟨hhead, htail⟩
      by_cases he : now > it.expiresAt
      · have hd : (decide (now ≤ it.expiresAt)) = false := by
          simp only [decide_eq_false_iff_not]
          omega
        simp [Engine.sweep, he, List.filter_cons, hd, ih htail]
      · have hd : (decide (now ≤ it.expiresAt)) = true := by
          simp only [decide_eq_true_eq]
          omega
        have hrest : rest.filter (fun it => decide (now ≤ it.expiresAt)) = rest :=
          List.filter_eq_self.mpr (fun b hb => by
            simp only [decide_eq_true_eq]
            have := hhead b hb
            omega)
        simp [Engine.sweep, he, List.filter_cons, hd, hrest]

/-- C7: `DeleteExpired` removes exactly the expired entries.  For a
non-LRU engine the early return is sound whenever the list is ordered by
expiry; for an LRU engine the full scan gives the same.  `Set` preserves
both the ordering and the expiry bound as long as the clock does not go
backwards, which is what keeps the non-LRU hypothesis an invariant under
a constant TTL. -/
theorem deleteExpired_removes_exactly {V : Type} (cfg : EngineCfg) (now : Nat)
    (st : List (CacheItem V)) :
    (cfg.isLRU = false → expiryOrdered st →
      Engine.deleteExpired cfg now st =
        st.filter (fun it => decide (now ≤ it.expiresAt))) ∧
    (cfg.isLRU = true →
      Engine.deleteExpired cfg now st =
        st.filter (fun it => decide (now ≤ it.expiresAt))) ∧
    (∀ (now' : Nat) (key : String) (v : V), now ≤ now' →
      expiryOrdered st → expiryBounded (now + cfg.ttl) st →
      expiryOrdered (Engine.set cfg now' key v st) ∧
      expiryBounded (now' + cfg.ttl) (Engine.set cfg now' key v st)) := by
  refine ⟨?_, ?_, ?_⟩
  · intro hl hord
    have hrev : List.Pairwise (fun a b => a.expiresAt ≤ b.expiresAt) st.reverse :=
      List.pairwise_reverse.mpr hord
    unfold Engine.deleteExpired
    rw [hl, sweep_sorted now st.reverse hrev, List.filter_reverse,
      List.reverse_reverse]
  · intro hl
    unfold Engine.deleteExpired
    rw [hl, sweep_lru, List.filter_reverse, List.reverse_reverse]
  · intro now' key v hle hord hbound
    have hkeep : ∀ b ∈ st, b.expiresAt ≤ now' + cfg.ttl := by
      intro b hb
      have := hbound b hb
      omega
    cases hf : Engine.findEntry key st with
    | some it =>
        simp only [Engine.set, hf]
        constructor
        · refine List.pairwise_cons.mpr ⟨?_, ?_⟩
          · intro b hb
            exact hkeep b ((List.eraseP_sublist st).subset hb)
          · exact hord.sublist (List.eraseP_sublist st)
        · intro b hb
          rcases List.mem_cons.mp hb with hb | hb
          · subst hb
            exact le_refl _
          · exact hkeep b ((List.eraseP_sublist st).subset hb)
    | none =>
        simp only [Engine.set, hf]
        have hcons :
            expiryOrdered (⟨key, v, now' + cfg.ttl⟩ :: st) ∧
            expiryBounded (now' + cfg.ttl) (⟨key, v, now' + cfg.ttl⟩ :: st) := by
          constructor
          · exact List.pairwise_cons.mpr ⟨fun b hb => hkeep b hb, hord⟩
          · intro b hb
            rcases List.mem_cons.mp hb with hb | hb
            · subst hb
              exact le_refl _
            · exact hkeep b hb
        by_cases hc : cfg.maxKeys > 0 ∧
            (((⟨key, v, now' + cfg.ttl⟩ :: st).length : Int) > cfg.maxKeys)
        · rw [if_pos hc]
          refine ⟨hcons.1.sublist (List.dropLast_sublist _), ?_⟩
          intro b hb
          exact hcons.2 b ((List.dropLast_sublist _).subset hb)
        · rw [if_neg hc]
          exact hcons

/-- Witness for C7: a concrete non-LRU engine whose list is ordered by
expiry; the sweep at instant 5 drops exactly the entry expired at 4, and
a `Set` at instant 6 keeps the order and the bound. -/
theorem deleteExpired_removes_exactly_wit :
    (Engine.deleteExpired (V := Nat) ⟨10, 0, false⟩ 5 [⟨"b", 2, 11⟩, ⟨"a", 1, 4⟩] =
      ([⟨"b", 2, 11⟩, ⟨"a", 1, 4⟩] : List (CacheItem Nat)).filter
        (fun it => decide (5 ≤ it.expiresAt))) ∧
    (expiryOrdered
      (Engine.set (V := Nat) ⟨10, 0, false⟩ 6 "c" 3 [⟨"b", 2, 11⟩, ⟨"a", 1, 4⟩]) ∧
     expiryBounded 16
      (Engine.set (V := Nat) ⟨10, 0, false⟩ 6 "c" 3 [⟨"b", 2, 11⟩, ⟨"a", 1, 4⟩])) :=
  ⟨(deleteExpired_removes_exactly ⟨10, 0, false⟩ 5 [⟨"b", 2, 11⟩, ⟨"a", 1, 4⟩]).1
      rfl (by unfold expiryOrdered; decide),
   (deleteExpired_removes_exactly (V := Nat) ⟨10, 0, false⟩ 1
      [⟨"b", 2, 11⟩, ⟨"a", 1, 4⟩]).2.2 6 "c" 3 (by decide)
      (by unfold expiryOrdered; decide)
      (by unfold expiryBounded; decide)⟩

/-- Helper for C9: no single operation ever shrinks `keysStorage`. -/
theorem expApply_keysStorage_mono {V : Type} (sizer : V → Option Int)
    (op : ExpOp V) (st : ExpState V) (k : String)
    (hk : k ∈ st.keysStorage) : k ∈ (expApply sizer op st).keysStorage := by
  cases op with
  | get key l =>
      simp only [expApply]
      unfold expGet
      cases hb : st.backend.find? (fun kv => kv.1 == key) with
      | some kv => exact hk
      | none =>
          rcases l with ⟨d, oe⟩
          cases oe with
          | some e => exact hk
          | none =>
              by_cases hc : st.keysStorage.contains key = true
              · rw [if_pos hc]
                exact hk
              · rw [if_neg hc]
                exact List.mem_cons_of_mem _ hk
  | invalidate fn => exact hk
  | del key => exact hk
  | purge => exact hk

/-- C9: `keysStorage` only ever grows.  `Invalidate`, `Delete` and
`Purge` remove entries from the ristretto backend only; a `Get` miss with
a successful loader records its key in `keysStorage`; and no operation
sequence ever removes a key from it, so `Keys()` keeps reporting every
key a miss ever cached, however it was evicted since. -/
theorem keysStorage_never_shrinks {V : Type} (sizer : V → Option Int) :
    (∀ (op : ExpOp V) (st : ExpState V) (k : String),
      k ∈ st.keysStorage → k ∈ (expApply sizer op st).keysStorage) ∧
    (∀ (fn : String → Bool) (key : String) (st : ExpState V),
      (expInvalidate fn st).keysStorage = st.keysStorage ∧
      (expDelete key st).keysStorage = st.keysStorage ∧
      (expPurge st).keysStorage = st.keysStorage) ∧
    (∀ (key : String) (d : V) (st : ExpState V),
      st.backend.find? (fun kv => kv.1 == key) = none →
      key ∈ (expApply sizer (ExpOp.get key (d, none)) st).keysStorage) ∧
    (∀ (ops : List (ExpOp V)) (st : ExpState V) (k : String),
      k ∈ st.keysStorage → k ∈ (expRun sizer ops st).keysStorage) := by
  refine ⟨expApply_keysStorage_mono sizer, ?_, ?_, ?_⟩
  · intro fn key st
    exact ⟨rfl, rfl, rfl⟩
  · intro key d st hb
    simp only [expApply]
    unfold expGet
    rw [hb]
    by_cases hc : st.keysStorage.contains key = true
    · rw [if_pos hc]
      exact List.elem_iff.mp hc
    · rw [if_neg hc]
      exact List.mem_cons_self _ _
  · intro ops
    induction ops with
    | nil => intro st k hk; exact hk
    | cons op rest ih =>
        intro st k hk
        exact ih (expApply sizer op st) k (expApply_keysStorage_mono sizer op st k hk)

/-- Witness for C9: an empty expirable cache caches a missed key; the key
is in `keysStorage` and stays there across a later `Delete` and `Purge`. -/
theorem keysStorage_never_shrinks_wit :
    "k" ∈ (expApply (V := Nat) (fun _ => none) (ExpOp.get ("k") (5, none))
      ⟨[], [], 0, 0, 0, 0⟩).keysStorage ∧
    "k" ∈ (expRun (V := Nat) (fun _ => none) [ExpOp.del ("k"), ExpOp.purge]
      (expApply (fun _ => none) (ExpOp.get ("k") (5, none))
        ⟨[], [], 0, 0, 0, 0⟩)).keysStorage :=
  ⟨(keysStorage_never_shrinks (V := Nat) (fun _ => none)).2.2.1 "k" 5
      ⟨[], [], 0, 0, 0, 0⟩ rfl,
   (keysStorage_never_shrinks (V := Nat) (fun _ => none)).2.2.2
      [ExpOp.del ("k"), ExpOp.purge] _ "k"
      ((keysStorage_never_shrinks (V := Nat) (fun _ => none)).2.2.1 "k" 5
        ⟨[], [], 0, 0, 0, 0⟩ rfl)⟩

/-! Lemmas about `strings.Split` and `strings.Join` as embedded above,
used for the round-trip and flush properties of the scoped cache. -/

/-- The fuel argument of `splitF` is irrelevant as long as it covers the
length of the scanned string. -/
theorem splitF_fuel_irrel (s0 : Char) (stail : Str) :
    ∀ (fuel fuel' : Nat) (acc l : Str), l.length ≤ fuel → l.length ≤ fuel' →
      splitF s0 stail fuel acc l = splitF s0 stail fuel' acc l := by
  intro fuel
  induction fuel with
  | zero =>
      intro fuel' acc l hl _
      have hnil : l = [] := List.eq_nil_of_length_eq_zero (Nat.le_zero.mp hl)
      subst hnil
      cases fuel' <;> rfl
  | succ f ih =>
      intro fuel' acc l hl hl'
      cases l with
      | nil => cases fuel' <;> rfl
      | cons c rest =>
          cases fuel' with
          | zero => simp at hl'
          | succ g =>
              simp only [splitF]
              by_cases hp : (s0 :: stail).isPrefixOf (c :: rest) = true
              · rw [if_pos hp, if_pos hp]
                have hlen : (rest.drop stail.length).length ≤ f := by
                  simp only [List.length_drop]
                  simp only [List.length_cons] at hl
                  omega
                have hlen' : (rest.drop stail.length).length ≤ g := by
                  simp only [List.length_drop]
                  simp only [List.length_cons] at hl'
                  omega
                exact congrArg _ (ih g [] _ hlen hlen')
              · rw [if_neg hp, if_neg hp]
                exact ih g (c :: acc) rest
                  (by simp only [List.length_cons] at hl; omega)
                  (by simp only [List.length_cons] at hl'; omega)

/-- Splitting a string free of the separator's first character yields a
single piece. -/
theorem splitF_no_occ (s0 : Char) (stail : Str) :
    ∀ (l : Str) (fuel : Nat) (acc : Str), (∀ c ∈ l, c ≠ s0) → l.length ≤ fuel →
      splitF s0 stail fuel acc l = [acc.reverse ++ l] := by
  intro l
  induction l with
  | nil =>
      intro fuel acc _ _
      cases fuel <;> simp [splitF]
  | cons c rest ih =>
      intro fuel acc hocc hl
      cases fuel with
      | zero => simp at hl
      | succ f =>
          have hne : c ≠ s0 := hocc c (List.mem_cons_self c rest)
          have hb : (s0 == c) = false := beq_eq_false_iff_ne.mpr (fun h => hne h.symm)
          have hp : (s0 :: stail).isPrefixOf (c :: rest) = false := by
            simp [List.isPrefixOf, hb]
          simp only [splitF]
          rw [if_neg (by simp [hp])]
          rw [ih f (c :: acc) (fun x hx => hocc x (List.mem_cons_of_mem c hx))
            (by simp only [List.length_cons] at hl; omega)]
          simp

/-- Splitting `l1 ++ sep ++ l2` where `l1` is free of the separator's
first character cuts exactly at that separator occurrence. -/
theorem splitF_append (s0 : Char) (stail : Str) :
    ∀ (l1 l2 : Str) (fuel : Nat) (acc : Str), (∀ c ∈ l1, c ≠ s0) →
      (l1 ++ (s0 :: stail) ++ l2).length ≤ fuel →
      splitF s0 stail fuel acc (l1 ++ (s0 :: stail) ++ l2) =
        (acc.reverse ++ l1) :: goSplit (s0 :: stail) l2 := by
  intro l1
  induction l1 with
  | nil =>
      intro l2 fuel acc _ hl
      simp only [List.nil_append] at hl ⊢
      cases fuel with
      | zero => simp at hl
      | succ f =>
          rw [List.cons_append]
          have hp : (s0 :: stail).isPrefixOf (s0 :: (stail ++ l2)) = true := by
            rw [show s0 :: (stail ++ l2) = (s0 :: stail) ++ l2 by simp,
              List.isPrefixOf_iff_prefix]
            exact List.prefix_append _ _
          simp only [splitF]
          rw [if_pos hp, List.drop_left]
          have hfuel : l2.length ≤ f := by
            simp only [List.cons_append, List.length_cons, List.length_append] at hl
            omega
          unfold goSplit
          rw [splitF_fuel_irrel s0 stail f l2.length [] l2 hfuel le_rfl]
          simp
  | cons c l1' ih =>
      intro l2 fuel acc hocc hl
      cases fuel with
      | zero => simp at hl
      | succ f =>
          have hne : c ≠ s0 := hocc c (List.mem_cons_self c l1')
          have hb : (s0 == c) = false := beq_eq_false_iff_ne.mpr (fun h => hne h.symm)
          simp only [List.cons_append] at hl ⊢
          have hp : (s0 :: stail).isPrefixOf
              (c :: (l1' ++ (s0 :: stail) ++ l2)) = false := by
            simp [List.isPrefixOf, hb]
          simp only [splitF]
          rw [if_neg (show ¬((s0 :: stail).isPrefixOf
            (c :: (l1' ++ s0 :: stail ++ l2)) = true) from
            fun hc => by rw [hp] at hc; cases hc)]
          rw [ih l2 f (c :: acc) (fun x hx => hocc x (List.mem_cons_of_mem c hx))
            (by simp only [List.length_cons, List.length_append] at hl ⊢; omega)]
          simp

/-- `goSplit` for a two-character separator, no occurrence. -/
theorem goSplit_no_occ (c0 : Char) (ctail : Str) (l : Str)
    (h : ∀ c ∈ l, c ≠ c0) : goSplit (c0 :: ctail) l = [l] := by
  show splitF c0 ctail l.length [] l = [l]
  rw [splitF_no_occ c0 ctail l l.length [] h le_rfl]
  simp

/-- `goSplit` for a two-character separator, cutting at a separator whose
left part is occurrence-free. -/
theorem goSplit_append (c0 : Char) (ctail : Str) (l1 l2 : Str)
    (h : ∀ c ∈ l1, c ≠ c0) :
    goSplit (c0 :: ctail) (l1 ++ (c0 :: ctail) ++ l2) =
      l1 :: goSplit (c0 :: ctail) l2 := by
  show splitF c0 ctail (l1 ++ (c0 :: ctail) ++ l2).length []
      (l1 ++ (c0 :: ctail) ++ l2) = l1 :: goSplit (c0 :: ctail) l2
  rw [splitF_append c0 ctail l1 l2 _ [] h le_rfl]
  simp

/-- Characters of a join come from the separator or from one of the
joined pieces. -/
theorem mem_goJoin (sep : Str) :
    ∀ (ss : List Str) (c : Char), c ∈ goJoin sep ss →
      c ∈ sep ∨ ∃ s ∈ ss, c ∈ s := by
  intro ss
  induction ss with
  | nil =>
      intro c hc
      simp [goJoin] at hc
  | cons s rest ih =>
      intro c hc
      cases rest with
      | nil =>
          simp only [goJoin] at hc
          exact Or.inr ⟨s, by simp, hc⟩
      | cons s2 rest2 =>
          simp only [goJoin, List.append_assoc, List.mem_append] at hc
          rcases hc with hc | hc | hc
          · exact Or.inr ⟨s, by simp, hc⟩
          · exact Or.inl hc
          · rcases ih c hc with h | ⟨t, ht, hct⟩
            · exact Or.inl h
            · exact Or.inr ⟨t, List.mem_cons_of_mem _ ht, hct⟩

/-- Splitting a `"$$"`-join of `"$"`-free, non-empty scopes and dropping
empty pieces recovers exactly the scopes. -/
theorem goSplit_goJoin_scopes :
    ∀ (ss : List Str), (∀ s ∈ ss, s ≠ [] ∧ ∀ c ∈ s, c ≠ '$') →
      (goSplit sepSS (goJoin sepSS ss)).filter (fun x => !x.isEmpty) = ss := by
  intro ss
  induction ss with
  | nil => intro _; rfl
  | cons s rest ih =>
      intro h
      have hhd := h s (List.mem_cons_self s rest)
      cases rest with
      | nil =>
          have hs : goSplit sepSS s = [s] := goSplit_no_occ '$' ['$'] s hhd.2
          show (goSplit sepSS (goJoin sepSS [s])).filter (fun x => !x.isEmpty) = [s]
          simp only [goJoin, hs, List.filter_cons]
          rw [if_pos (by simp [List.isEmpty_iff, hhd.1])]
          rfl
      | cons s2 rest2 =>
          have heq : goJoin sepSS (s :: s2 :: rest2) =
              s ++ sepSS ++ goJoin sepSS (s2 :: rest2) := rfl
          rw [heq, show sepSS = ('$' :: ['$']) from rfl,
            goSplit_append '$' ['$'] s (goJoin ('$' :: ['$']) (s2 :: rest2)) hhd.2]
          rw [List.filter_cons, if_pos (by simp [List.isEmpty_iff, hhd.1])]
          have := ih (fun t ht => h t (List.mem_cons_of_mem s ht))
          rw [show ('$' :: ['$'] : Str) = sepSS from rfl, this]

/-- A string that does not split on `"@@"` into exactly 3 parts fails to
parse. -/
theorem parseKey_not3 (s : Str) (hlen : (goSplit sepAA s).length ≠ 3) :
    parseKey s = none := by
  unfold parseKey
  cases h : goSplit sepAA s with
  | nil => rfl
  | cons a t =>
      cases t with
      | nil => rfl
      | cons b t2 =>
          cases t2 with
          | nil => rfl
          | cons c t3 =>
              cases t3 with
              | nil =>
                  exfalso
                  apply hlen
                  rw [h]
                  rfl
              | cons d t4 => rfl

/-- Round trip on separator-free keys: serializing and parsing gives the
key back. -/
theorem parseKey_keyString (k : Key) (h : sepFree k) :
    parseKey (keyString k) = some k := by
  obtain ⟨hpart, hid, hsc⟩ := h
  have hjoin : ∀ c ∈ goJoin sepSS k.scopes, c ≠ '@' := by
    intro c hc
    rcases mem_goJoin sepSS k.scopes c hc with hcs | ⟨s, hsmem, hcins⟩
    · intro hco
      subst hco
      simp [sepSS] at hcs
    · exact ((hsc s hsmem).2 c hcins).1
  have hsplit : goSplit sepAA (keyString k) =
      [k.partition, k.id, goJoin sepSS k.scopes] := by
    unfold keyString
    rw [show k.partition ++ sepAA ++ k.id ++ sepAA ++ goJoin sepSS k.scopes =
        k.partition ++ sepAA ++ (k.id ++ sepAA ++ goJoin sepSS k.scopes) by
      simp [List.append_assoc]]
    rw [show sepAA = ('@' :: ['@']) from rfl]
    rw [goSplit_append '@' ['@'] k.partition _ hpart]
    rw [goSplit_append '@' ['@'] k.id _ hid]
    rw [goSplit_no_occ '@' ['@'] _ hjoin]
  have hscopes : (goSplit sepSS (goJoin sepSS k.scopes)).filter
      (fun x => !x.isEmpty) = k.scopes :=
    goSplit_goJoin_scopes k.scopes
      (fun s hs => ⟨(hsc s hs).1, fun c hc => ((hsc s hs).2 c hc).2⟩)
  unfold parseKey
  rw [hsplit]
  show some (⟨k.partition, k.id, (goSplit sepSS (goJoin sepSS k.scopes)).filter
    (fun x => !x.isEmpty)⟩ : Key) = some k
  rw [hscopes]

/-- C8 counterexample: the builder accepts components containing the
separator, and then the round trip fails.  The key
`{partition := "a@@b", id := "x", scopes := []}` serializes to
`"a@@b@@x@@"`, which splits into 4 parts, so `parseKey` errors instead of
returning the key. -/
theorem parseKey_roundTrip_cex :
    parseKey (keyString ⟨"a@@b".toList, "x".toList, []⟩) = none ∧
    parseKey (keyString ⟨"a@@b".toList, "x".toList, []⟩) ≠
      some ⟨"a@@b".toList, "x".toList, []⟩ := by
  decide

/-- C8 (amended): for every builder key whose partition and id contain no
`@` and whose scopes are non-empty and free of `@` and `$`,
`parseKey (k.String())` succeeds and returns `k`; and `parseKey` fails on
every string that does not split on `"@@"` into exactly 3 parts, in
particular on `"abc"` and on `""`. -/
theorem parseKey_roundTrip (k : Key) (h : sepFree k) :
    parseKey (keyString k) = some k ∧
    (∀ s : Str, (goSplit sepAA s).length ≠ 3 → parseKey s = none) ∧
    parseKey ("abc".toList) = none ∧ parseKey ([]) = none :=
  ⟨parseKey_keyString k h, fun s hs => parseKey_not3 s hs, by decide, by decide⟩

/-- Witness for C8: the round trip on the concrete key
`p1@@key1@@s1` of `TestScope_Key`. -/
theorem parseKey_roundTrip_wit :
    parseKey (keyString ⟨"p1".toList, "key1".toList, ["s1".toList]⟩) =
      some ⟨"p1".toList, "key1".toList, ["s1".toList]⟩ :=
  (parseKey_roundTrip ⟨"p1".toList, "key1".toList, ["s1".toList]⟩
    (by unfold sepFree; decide)).1

/-- Membership after the flush fold: a key survives iff it was present
and is not a matching key of the iterated snapshot. -/
theorem flushFold_mem (matcher : List Str → List Str → Bool)
    (req : FlusherRequest) :
    ∀ (snap st : List Str) (k : Str),
      (k ∈ snap.foldl
        (fun s x => if shouldFlush matcher req x then deleteKey x s else s) st) ↔
      (k ∈ st ∧ (shouldFlush matcher req k = true → k ∉ snap)) := by
  intro snap
  induction snap with
  | nil =>
      intro st k
      simp
  | cons x rest ih =>
      intro st k
      rw [List.foldl_cons, ih]
      by_cases hx : shouldFlush matcher req x = true
      · rw [if_pos hx]
        unfold deleteKey
        constructor
        · rintro ⟨hmem, hnot⟩
          rcases List.mem_filter.mp hmem with ⟨hst, hbe⟩
          refine ⟨hst, fun hsf hin => ?_⟩
          rcases List.mem_cons.mp hin with rfl | hin
          · simp at hbe
          · exact hnot hsf hin
        · rintro ⟨hst, hnot⟩
          by_cases hk : k = x
          · subst hk
            exact absurd (List.mem_cons_self k rest) (hnot hx)
          · exact ⟨List.mem_filter.mpr ⟨hst, by simp [hk]⟩,
              fun hsf hin => hnot hsf (List.mem_cons_of_mem _ hin)⟩
      · rw [if_neg hx]
        constructor
        · rintro ⟨hst, hnot⟩
          refine ⟨hst, fun hsf hin => ?_⟩
          rcases List.mem_cons.mp hin with rfl | hin
          · exact hx hsf
          · exact hnot hsf hin
        · rintro ⟨hst, hnot⟩
          exact ⟨hst, fun hsf hin => hnot hsf (List.mem_cons_of_mem _ hin)⟩

/-- C2 counterexample: on exactly the population of `TestScache_Flush`
(`src/scache_test.go`), flushing the `site` partition with scopes
`{s1, s2, ss}` under the claim's every-scope match rule deletes nothing —
no key carries `ss` — and leaves all 7 keys, while the test's row
"flush s1+s2+wrong scope" requires 2 keys to remain; the any-scope rule
leaves exactly those 2. -/
theorem flush_everyScope_contradicts_tests :
    (["s1".toList, "s2".toList, "ss".toList], 2) ∈ flushTbl ∧
    (scacheFlush matchScopesSpec ⟨siteP, ["s1".toList, "s2".toList, "ss".toList]⟩
        flushKeys).length = 7 ∧
    (scacheFlush matchScopesAny ⟨siteP, ["s1".toList, "s2".toList, "ss".toList]⟩
        flushKeys).length = 2 := by
  decide

/-- C2 (amended): with the match rule the tests pin down — the requested
scope set is empty or at least one requested scope appears in the key's
scope set — `Flush` deletes exactly the parseable keys of the requested
partition whose scope set matches: a key survives iff it was present and
either fails to parse, belongs to another partition, or matches no
requested scope.  Unparseable keys are never deleted.  The model
reproduces every row of `TestScache_Flush` and the
`TestScache_FlushFailed` scenario. -/
theorem scacheFlush_any_exact :
    (∀ (req : FlusherRequest) (keys : List Str) (k : Str),
      k ∈ scacheFlush matchScopesAny req keys ↔
        k ∈ keys ∧ shouldFlush matchScopesAny req k = false) ∧
    (∀ (req : FlusherRequest) (k : Str), parseKey k = none →
      shouldFlush matchScopesAny req k = false) ∧
    (∀ (req : FlusherRequest) (pk : Key) (k : Str), parseKey k = some pk →
      (shouldFlush matchScopesAny req k = true ↔
        pk.partition = req.partition ∧
          (req.scopes = [] ∨ ∃ s ∈ req.scopes, s ∈ pk.scopes))) ∧
    (flushTbl.all (fun row =>
      (scacheFlush matchScopesAny ⟨siteP, row.1⟩ flushKeys).length == row.2)
        = true) ∧
    ((scacheFlush matchScopesAny ⟨siteP, ["invalid-composite".toList]⟩
        [keyString ⟨siteP, "invalid-composite".toList, []⟩]).length = 1) := by
  refine ⟨?_, ?_, ?_, by decide, by decide⟩
  · intro req keys k
    unfold scacheFlush
    rw [flushFold_mem]
    constructor
    · rintro ⟨hmem, hnot⟩
      refine ⟨hmem, ?_⟩
      by_cases hsf : shouldFlush matchScopesAny req k = true
      · exact absurd hmem (hnot hsf)
      · simpa using hsf
    · rintro ⟨hmem, hfalse⟩
      exact ⟨hmem, fun hsf => by rw [hfalse] at hsf; cases hsf⟩
  · intro req k hp
    unfold shouldFlush
    rw [hp]
  · intro req pk k hp
    unfold shouldFlush
    rw [hp]
    simp only [Bool.and_eq_true, beq_iff_eq, matchScopesAny, Bool.or_eq_true,
      List.isEmpty_iff, List.any_eq_true]
    constructor
    · rintro ⟨h1, h2 | h2⟩
      · exact ⟨h1, Or.inl h2⟩
      · rcases h2 with ⟨s, hs, hcont⟩
        exact ⟨h1, Or.inr ⟨s, hs, List.elem_iff.mp hcont⟩⟩
    · rintro ⟨h1, h2 | h2⟩
      · exact ⟨h1, Or.inl h2⟩
      · rcases h2 with ⟨s, hs, hmem⟩
        exact ⟨h1, Or.inr ⟨s, hs, List.elem_iff.mpr hmem⟩⟩

/-- Witness for C2: an unparseable key is never flushed, and the key of
`TestScache_FlushFailed` survives a flush on its own id as scope. -/
theorem scacheFlush_any_exact_wit :
    shouldFlush matchScopesAny ⟨siteP, ["s1".toList]⟩ ("abc".toList) = false ∧
    (keyString ⟨siteP, "invalid-composite".toList, []⟩ ∈
      scacheFlush matchScopesAny ⟨siteP, ["invalid-composite".toList]⟩
        [keyString ⟨siteP, "invalid-composite".toList, []⟩]) :=
  ⟨scacheFlush_any_exact.2.1 ⟨siteP, ["s1".toList]⟩ ("abc".toList) (by decide),
   (scacheFlush_any_exact.1 ⟨siteP, ["invalid-composite".toList]⟩
      [keyString ⟨siteP, "invalid-composite".toList, []⟩]
      (keyString ⟨siteP, "invalid-composite".toList, []⟩)).mpr
    ⟨List.mem_cons_self _ _, by decide⟩⟩

end Lcw
